import Mathlib

/-!
Verification development for the sfizz realtime MIDI state and region
modulation code.  The definitions shallowly embed the C++ sources
(`src/sfizz/MidiState.cpp`, `src/sfizz/Region.cpp`,
`src/sfizz/SynthMessaging.cpp`): delays are modelled as `Int` (C++ `int`),
controller values as `ℚ` (C++ `float`; only copies and single additions of
values occur in the verified paths, so exact arithmetic is faithful), and
the unsigned 32-bit internal clock as `ℕ` reduced modulo `2^32`.
-/

namespace Sfz

/-- One timestamped event of an event vector (C++ `sfz::MidiEvent`:
a `delay` in samples and a controller `value`). -/
structure MidiEvent where
  delay : Int
  value : ℚ
deriving DecidableEq, Repr

/-- The C++ `sfz::EventVector` (a vector of `MidiEvent`). -/
abbrev EventVector := List MidiEvent

/-- Embeds `events.back().value` — the value of the last entry, `0` on an empty
vector (the C++ asserts non-emptiness and never reads an empty one). -/
def lastValue (events : EventVector) : ℚ :=
  (events.getLast?).elim 0 MidiEvent.value

/-- Last-known-value semantics: the value of the last event of `events`
whose delay is at most `d`, or `base` when there is none.  For a vector
sorted by delay this is the value in effect at time `d`. -/
def valueFrom (base : ℚ) (events : EventVector) (d : Int) : ℚ :=
  events.foldl (fun acc e => if e.delay ≤ d then e.value else acc) base

/-- The last-known value of an event vector at delay `d` (base `0`). -/
def lastKnownValue (events : EventVector) (d : Int) : ℚ :=
  valueFrom 0 events d

/-- Strict sortedness by delay, the documented invariant of event
vectors (`MidiEventDelayComparator` ordering with distinct delays). -/
def sortedByDelay (events : EventVector) : Prop :=
  events.Pairwise fun a b => a.delay < b.delay

instance (events : EventVector) : Decidable (sortedByDelay events) := by
  unfold sortedByDelay; infer_instance

/-- Embeds `sfz::MidiState::insertEventInVector` (MidiState.cpp:191).  The C++
computes `lower_bound` with the delay comparator — the first entry whose
delay is at least `delay` — and inserts there, or overwrites the value of
an entry already carrying that exact delay. -/
def insertEventInVector : EventVector → Int → ℚ → EventVector
  | [], d, v => [⟨d, v⟩]
  | e :: rest, d, v =>
    if e.delay < d then e :: insertEventInVector rest d v
    else if e.delay ≠ d then ⟨d, v⟩ :: e :: rest
    else ⟨e.delay, v⟩ :: rest

/-- The per-vector body of `sfz::MidiState::flushEvents` (MidiState.cpp:108):
`front.value = back.value; front.delay = 0; resize(1)`.  The C++ asserts
the vector non-empty; the empty case is never reached under the invariant. -/
def flushEventVector (events : EventVector) : EventVector :=
  match events with
  | [] => []
  | _ :: _ => [⟨0, lastValue events⟩]

/-- The merge loop of `sfz::MidiState::additiveMergeEvents`
(MidiState.cpp:215-248): `p1`/`p2` are `prevval1`/`prevval2`, the values of
the last consumed events of each input. -/
def mergeTails : ℚ → ℚ → EventVector → EventVector → EventVector
  | p1, _, [], l2 => l2.map fun e => ⟨e.delay, p1 + e.value⟩
  | _, p2, e1 :: r1, [] => (e1 :: r1).map fun e => ⟨e.delay, e.value + p2⟩
  | p1, p2, e1 :: r1, e2 :: r2 =>
    if e1.delay = e2.delay then
      ⟨e1.delay, e1.value + e2.value⟩ :: mergeTails e1.value e2.value r1 r2
    else if e1.delay < e2.delay then
      ⟨e1.delay, e1.value + p2⟩ :: mergeTails e1.value p2 r1 (e2 :: r2)
    else
      ⟨e2.delay, p1 + e2.value⟩ :: mergeTails p1 e2.value (e1 :: r1) r2
termination_by _ _ l1 l2 => l1.length + l2.length

/-- Embeds `sfz::MidiState::additiveMergeEvents` (MidiState.cpp:200): clears the
destination, pushes `{0, v1+v2}` from the two base entries, then runs the
merge loop on the tails.  The C++ asserts both inputs non-empty; the
fallback is never reached under the invariant. -/
def additiveMergeEvents (events1 events2 : EventVector) : EventVector :=
  match events1, events2 with
  | e1 :: r1, e2 :: r2 =>
    ⟨0, e1.value + e2.value⟩ :: mergeTails e1.value e2.value r1 r2
  | _, _ => []

/-- Embeds `lower_bound` with `MidiEventDelayComparator`: the first event of the
vector whose delay is at least `d`, if any (used by `getCCValueAt` and
`getPerNoteCCValueAt`). -/
def lowerBoundEvent : EventVector → Int → Option MidiEvent
  | [], _ => none
  | e :: rest, d => if e.delay < d then lowerBoundEvent rest d else some e

/-- The read shared by `sfz::MidiState::getCCValueAt` (MidiState.cpp:305)
and `getPerNoteCCValueAt`: the value of the `lower_bound` event, falling
back to the last entry's value when the `lower_bound` is `end()`. -/
def valueAtOrAfter (events : EventVector) (d : Int) : ℚ :=
  match lowerBoundEvent events d with
  | some e => e.value
  | none => lastValue events

/-- Embeds `sfz::MidiState::insertValueInVector` (MidiState.h, embedded in
src/src/sfizz/gen/filters/sfzBrf2pSv.hxx:622): `absl::c_find` the value and
`push_back` it only when it is not already present. -/
def insertValueInVector (l : List Int) (x : Int) : List Int :=
  if x ∈ l then l else l ++ [x]

/-- Modelled from the spec: `config::numCCs`, the size of the controller
space (128 MIDI CCs plus the reserved extended slots); the configuration
header is absent from the sources and the exact count is immaterial to the
claims. -/
def numCCs : Int := 512

/-- Modelled from the spec: the reserved extended CC slots beyond the 128
MIDI controllers (note-on velocity, note-off velocity, keyboard note
number, unipolar/bipolar random, gate, alternate, keydelta, absolute
keydelta).  The header defining the exact indices is absent from the
sources; they are taken as distinct values at and above 128. -/
def ExtendedCCs.noteOnVelocity : Int := 131

def ExtendedCCs.noteOffVelocity : Int := 132

def ExtendedCCs.keyboardNoteNumber : Int := 133

def ExtendedCCs.keyboardNoteGate : Int := 134

def ExtendedCCs.unipolarRandom : Int := 135

def ExtendedCCs.bipolarRandom : Int := 136

def ExtendedCCs.alternate : Int := 137

def AriaExtendedCCs.keydelta : Int := 140

def AriaExtendedCCs.absoluteKeydelta : Int := 141

/-- Modelled from the spec: `normalize7Bits` (MathHelpers.h, absent from
the sources) normalizes a 7-bit MIDI number into the unit range. -/
def normalize7Bits (value : Int) : ℚ := (value : ℚ) / 127

/-- Embeds `static_cast<unsigned>` of a C++ `int`: reduction modulo `2^32`. -/
def toUnsigned (d : Int) : ℕ := (d % (2 ^ 32)).toNat

/-- Embeds `sfz::MidiState::PerNoteState` (MidiState.h, embedded in
src/src/sfizz/gen/filters/sfzBrf2pSv.hxx:607): per-note CC event vectors
with their active-CC list, the per-note base pitch stream, and the
per-note pitch-bend stream. -/
structure PerNoteState where
  ccEvents : Int → EventVector
  activeCCs : List Int
  basePitchEvents : EventVector
  pitchBendEvents : EventVector
  bendActive : Bool
  basePitchOverridden : Bool

/-- Embeds the `sfz::MidiState` data (MidiState.h, embedded in
src/src/sfizz/gen/filters/sfzBrf2pSv.hxx:195, and MidiState.cpp).  Arrays
indexed by note or controller number (`MidiNoteArray`,
`std::array<..., config::numCCs>`, `std::array<..., 128>`) become total
functions from `Int`; the C++ only ever touches in-range indices. -/
structure MidiState where
  sampleRate : ℚ
  internalClock : ℕ
  noteOnTimes : Int → ℕ
  noteOffTimes : Int → ℕ
  lastNoteVelocities : Int → ℚ
  lastNotePlayed : Int
  velocityOverride : ℚ
  activeNotes : ℕ
  alternate : ℚ
  noteStates : Int → Bool
  ccEvents : Int → EventVector
  pitchEvents : EventVector
  channelAftertouchEvents : EventVector
  polyAftertouchEvents : Int → EventVector
  perNoteState : Int → PerNoteState
  currentProgram : Int

namespace MidiState

/-- Embeds `sfz::MidiState::ccEvent` (MidiState.cpp:294). -/
def ccEvent (s : MidiState) (delay ccNumber : Int) (ccValue : ℚ) : MidiState :=
  let inserted := insertEventInVector (s.ccEvents ccNumber) delay ccValue
  { s with ccEvents := Function.update s.ccEvents ccNumber inserted }

/-- Embeds `sfz::MidiState::pitchBendEvent` (MidiState.cpp:252). -/
def pitchBendEvent (s : MidiState) (delay : Int) (pitchBendValue : ℚ) : MidiState :=
  { s with pitchEvents := insertEventInVector s.pitchEvents delay pitchBendValue }

/-- Embeds `sfz::MidiState::channelAftertouchEvent` (MidiState.cpp:264). -/
def channelAftertouchEvent (s : MidiState) (delay : Int) (aftertouch : ℚ) : MidiState :=
  { s with channelAftertouchEvents :=
      insertEventInVector s.channelAftertouchEvents delay aftertouch }

/-- Embeds `sfz::MidiState::polyAftertouchEvent` (MidiState.cpp:270): out-of-range
note numbers are rejected. -/
def polyAftertouchEvent (s : MidiState) (delay noteNumber : Int) (aftertouch : ℚ) : MidiState :=
  if noteNumber < 0 ∨ 128 ≤ noteNumber then s
  else
    let inserted := insertEventInVector (s.polyAftertouchEvents noteNumber) delay aftertouch
    { s with polyAftertouchEvents :=
        Function.update s.polyAftertouchEvents noteNumber inserted }

/-- Embeds `sfz::MidiState::noteBasePitchEvent` (MidiState.cpp:457): inserts the
pitch event and marks the base pitch overridden. -/
def noteBasePitchEvent (s : MidiState) (delay noteNumber : Int) (pitch : ℚ) : MidiState :=
  if noteNumber < 0 ∨ 128 ≤ noteNumber then s
  else
    let pn := s.perNoteState noteNumber
    let pn2 := { pn with
      basePitchEvents := insertEventInVector pn.basePitchEvents delay pitch
      basePitchOverridden := true }
    { s with perNoteState := Function.update s.perNoteState noteNumber pn2 }

/-- Embeds `sfz::MidiState::perNoteCCEvent` (MidiState.cpp:467): inserts the event
and records the controller in the active-CC list. -/
def perNoteCCEvent (s : MidiState) (delay noteNumber ccNumber : Int) (ccValue : ℚ) : MidiState :=
  if noteNumber < 0 ∨ 128 ≤ noteNumber then s
  else
    let pn := s.perNoteState noteNumber
    let inserted := insertEventInVector (pn.ccEvents ccNumber) delay ccValue
    let pn2 := { pn with
      ccEvents := Function.update pn.ccEvents ccNumber inserted
      activeCCs := insertValueInVector pn.activeCCs ccNumber }
    { s with perNoteState := Function.update s.perNoteState noteNumber pn2 }

/-- Embeds `sfz::MidiState::perNotePitchBendEvent` (MidiState.cpp:517). -/
def perNotePitchBendEvent (s : MidiState) (delay noteNumber : Int) (pitchBendValue : ℚ) : MidiState :=
  if noteNumber < 0 ∨ 128 ≤ noteNumber then s
  else
    let pn := s.perNoteState noteNumber
    let pn2 := { pn with
      bendActive := true
      pitchBendEvents := insertEventInVector pn.pitchBendEvents delay pitchBendValue }
    { s with perNoteState := Function.update s.perNoteState noteNumber pn2 }

/-- The per-note body of `sfz::MidiState::flushEvents` (MidiState.cpp:124):
flush the active per-note CC vectors, the base pitch and pitch-bend
vectors, and mark the bend inactive when its flushed value is zero. -/
def flushPerNote (pn : PerNoteState) : PerNoteState :=
  { pn with
    ccEvents := fun cc =>
      if cc ∈ pn.activeCCs then flushEventVector (pn.ccEvents cc) else pn.ccEvents cc
    basePitchEvents := flushEventVector pn.basePitchEvents
    pitchBendEvents := flushEventVector pn.pitchBendEvents
    bendActive :=
      if lastValue (flushEventVector pn.pitchBendEvents) = 0 then false else pn.bendActive }

/-- Embeds `sfz::MidiState::flushEvents` (MidiState.cpp:106). -/
def flushEvents (s : MidiState) : MidiState :=
  { s with
    ccEvents := fun cc => flushEventVector (s.ccEvents cc)
    pitchEvents := flushEventVector s.pitchEvents
    channelAftertouchEvents := flushEventVector s.channelAftertouchEvents
    polyAftertouchEvents := fun n => flushEventVector (s.polyAftertouchEvents n)
    perNoteState := fun n => flushPerNote (s.perNoteState n) }

/-- Embeds `sfz::MidiState::advanceTime` (MidiState.cpp:100): advance the unsigned
32-bit internal clock and flush every event vector. -/
def advanceTime (s : MidiState) (numSamples : Int) : MidiState :=
  flushEvents { s with internalClock := (s.internalClock + toUnsigned numSamples) % 2 ^ 32 }

/-- Embeds `sfz::MidiState::noteOnEvent` (MidiState.cpp:21).  The two pseudo-random
draws of the C++ (`unipolarDist`/`bipolarDist`) are passed in explicitly. -/
def noteOnEvent (s : MidiState) (delay noteNumber : Int) (velocity uniRand biRand : ℚ) :
    MidiState :=
  if noteNumber < 0 ∨ 128 ≤ noteNumber then s
  else
    let keydelta : ℚ :=
      if 0 ≤ s.lastNotePlayed then ((noteNumber - s.lastNotePlayed : Int) : ℚ) else 0
    let s1 :=
      if 0 ≤ s.lastNotePlayed then
        { s with velocityOverride := s.lastNoteVelocities s.lastNotePlayed }
      else s
    let s2 := { s1 with
      lastNoteVelocities := Function.update s1.lastNoteVelocities noteNumber velocity
      noteOnTimes :=
        Function.update s1.noteOnTimes noteNumber
          ((s1.internalClock + toUnsigned delay) % 2 ^ 32)
      lastNotePlayed := noteNumber }
    let s3 := noteBasePitchEvent s2 delay noteNumber (noteNumber : ℚ)
    let s4 := { s3 with
      perNoteState :=
        Function.update s3.perNoteState noteNumber
          { s3.perNoteState noteNumber with basePitchOverridden := false }
      noteStates := Function.update s3.noteStates noteNumber true }
    let s5 := ccEvent s4 delay ExtendedCCs.noteOnVelocity velocity
    let s6 := ccEvent s5 delay ExtendedCCs.keyboardNoteNumber (normalize7Bits noteNumber)
    let s7 := ccEvent s6 delay ExtendedCCs.unipolarRandom uniRand
    let s8 := ccEvent s7 delay ExtendedCCs.bipolarRandom biRand
    let s9 := ccEvent s8 delay ExtendedCCs.keyboardNoteGate (if 0 < s8.activeNotes then 1 else 0)
    let s10 := ccEvent s9 delay AriaExtendedCCs.keydelta keydelta
    let s11 := ccEvent s10 delay AriaExtendedCCs.absoluteKeydelta |keydelta|
    let s12 := { s11 with activeNotes := s11.activeNotes + 1 }
    let s13 := ccEvent s12 delay ExtendedCCs.alternate s12.alternate
    { s13 with alternate := if s13.alternate = 0 then 1 else 0 }

/-- Embeds `sfz::MidiState::noteOffEvent` (MidiState.cpp:67). -/
def noteOffEvent (s : MidiState) (delay noteNumber : Int) (velocity uniRand biRand : ℚ) :
    MidiState :=
  if noteNumber < 0 ∨ 128 ≤ noteNumber then s
  else
    let s1 := { s with
      noteOffTimes :=
        Function.update s.noteOffTimes noteNumber
          ((s.internalClock + toUnsigned delay) % 2 ^ 32) }
    let s2 := ccEvent s1 delay ExtendedCCs.noteOffVelocity velocity
    let s3 := ccEvent s2 delay ExtendedCCs.keyboardNoteNumber (normalize7Bits noteNumber)
    let s4 := ccEvent s3 delay ExtendedCCs.unipolarRandom uniRand
    let s5 := ccEvent s4 delay ExtendedCCs.bipolarRandom biRand
    { s5 with
      activeNotes := if 0 < s5.activeNotes then s5.activeNotes - 1 else s5.activeNotes
      noteStates := Function.update s5.noteStates noteNumber false }

/-- Embeds `sfz::MidiState::resetEventStates` (MidiState.cpp:364). -/
def resetEventStates (s : MidiState) : MidiState :=
  { s with
    ccEvents := fun _ => [⟨0, 0⟩]
    polyAftertouchEvents := fun _ => [⟨0, 0⟩]
    pitchEvents := [⟨0, 0⟩]
    channelAftertouchEvents := [⟨0, 0⟩]
    perNoteState := fun n =>
      { s.perNoteState n with
        ccEvents := fun _ => [⟨0, 0⟩]
        pitchBendEvents := [⟨0, 0⟩]
        bendActive := false
        activeCCs := [] } }

/-- Embeds `sfz::MidiState::resetNoteStates` (MidiState.cpp:330). -/
def resetNoteStates (s : MidiState) : MidiState :=
  let zeroed : Int → EventVector := fun cc =>
    if cc = ExtendedCCs.noteOnVelocity ∨ cc = ExtendedCCs.keyboardNoteNumber ∨
        cc = ExtendedCCs.unipolarRandom ∨ cc = ExtendedCCs.bipolarRandom ∨
        cc = ExtendedCCs.keyboardNoteGate ∨ cc = ExtendedCCs.alternate then
      [⟨0, 0⟩]
    else s.ccEvents cc
  { s with
    lastNoteVelocities := fun _ => 0
    velocityOverride := 0
    activeNotes := 0
    internalClock := 0
    lastNotePlayed := -1
    alternate := 0
    ccEvents := zeroed
    noteStates := fun _ => false
    noteOnTimes := fun _ => 0
    noteOffTimes := fun _ => 0
    perNoteState := fun n =>
      { s.perNoteState n with
        basePitchOverridden := false
        basePitchEvents := [⟨0, (n : ℚ)⟩] } }

/-- Embeds `sfz::MidiState::setSampleRate` (MidiState.cpp:92). -/
def setSampleRate (s : MidiState) (sampleRate : ℚ) : MidiState :=
  { s with
    sampleRate := sampleRate
    internalClock := 0
    noteOnTimes := fun _ => 0
    noteOffTimes := fun _ => 0 }

/-- Embeds `sfz::MidiState::getCCValue` (MidiState.cpp:299). -/
def getCCValue (s : MidiState) (ccNumber : Int) : ℚ :=
  lastValue (s.ccEvents ccNumber)

/-- Embeds `sfz::MidiState::getCCValueAt` (MidiState.cpp:305). -/
def getCCValueAt (s : MidiState) (ccNumber delay : Int) : ℚ :=
  valueAtOrAfter (s.ccEvents ccNumber) delay

/-- Embeds `sfz::MidiState::getPitchBend` (MidiState.cpp:258). -/
def getPitchBend (s : MidiState) : ℚ :=
  lastValue s.pitchEvents

/-- Embeds `sfz::MidiState::getChannelAftertouch` (MidiState.cpp:279). -/
def getChannelAftertouch (s : MidiState) : ℚ :=
  lastValue s.channelAftertouchEvents

/-- Embeds `sfz::MidiState::getPolyAftertouch` (MidiState.cpp:285). -/
def getPolyAftertouch (s : MidiState) (noteNumber : Int) : ℚ :=
  if noteNumber < 0 ∨ 127 < noteNumber then 0
  else lastValue (s.polyAftertouchEvents noteNumber)

/-- Embeds `sfz::MidiState::getPerNoteCCValue` (MidiState.cpp:482). -/
def getPerNoteCCValue (s : MidiState) (noteNumber ccNumber : Int) : ℚ :=
  if noteNumber < 0 ∨ 128 ≤ noteNumber then 0
  else if ccNumber ∈ (s.perNoteState noteNumber).activeCCs then
    lastValue ((s.perNoteState noteNumber).ccEvents ccNumber)
  else 0

/-- Embeds `sfz::MidiState::getPerNoteCCValueAt` (MidiState.cpp:496). -/
def getPerNoteCCValueAt (s : MidiState) (noteNumber ccNumber delay : Int) : ℚ :=
  if noteNumber < 0 ∨ 128 ≤ noteNumber then 0
  else if ccNumber ∈ (s.perNoteState noteNumber).activeCCs then
    valueAtOrAfter ((s.perNoteState noteNumber).ccEvents ccNumber) delay
  else 0

/-- Embeds `sfz::MidiState::getPerNotePitchBend` (MidiState.cpp:526). -/
def getPerNotePitchBend (s : MidiState) (noteNumber : Int) : ℚ :=
  if noteNumber < 0 ∨ 128 ≤ noteNumber then 0
  else if (s.perNoteState noteNumber).bendActive then
    lastValue ((s.perNoteState noteNumber).pitchBendEvents)
  else 0

/-- Embeds `sfz::MidiState::getNoteBasePitch` (MidiState.cpp:432). -/
def getNoteBasePitch (s : MidiState) (noteNumber : Int) : ℚ :=
  if noteNumber < 0 ∨ 128 ≤ noteNumber then 0
  else if (s.perNoteState noteNumber).basePitchOverridden then
    lastValue ((s.perNoteState noteNumber).basePitchEvents)
  else (noteNumber : ℚ)

/-- Embeds `sfz::MidiState::getNoteDuration` (MidiState.cpp:164): unsigned 32-bit
arithmetic `internalClock + (unsigned)delay - noteOnTimes[note]`, divided
by the sample rate. -/
def getNoteDuration (s : MidiState) (noteNumber delay : Int) : ℚ :=
  if noteNumber < 0 ∨ 128 ≤ noteNumber then 0
  else
    let timeInSamples : ℕ :=
      (s.internalClock + toUnsigned delay + (2 ^ 32 - s.noteOnTimes noteNumber % 2 ^ 32)) % 2 ^ 32
    (timeInSamples : ℚ) / s.sampleRate

end MidiState

/-- A `MidiState` with every field zeroed, from which the constructor state
is built. -/
def emptyMidiState : MidiState where
  sampleRate := 0
  internalClock := 0
  noteOnTimes := fun _ => 0
  noteOffTimes := fun _ => 0
  lastNoteVelocities := fun _ => 0
  lastNotePlayed := -1
  velocityOverride := 0
  activeNotes := 0
  alternate := 0
  noteStates := fun _ => false
  ccEvents := fun _ => []
  pitchEvents := []
  channelAftertouchEvents := []
  polyAftertouchEvents := fun _ => []
  perNoteState := fun _ =>
    { ccEvents := fun _ => []
      activeCCs := []
      basePitchEvents := []
      pitchBendEvents := []
      bendActive := false
      basePitchOverridden := false }
  currentProgram := 0

/-- The `sfz::MidiState` constructor (MidiState.cpp:11): reset the event
states and the note states. -/
def initMidiState : MidiState :=
  MidiState.resetNoteStates (MidiState.resetEventStates emptyMidiState)

/-- Modelled from the spec: a `ModKey` is the address of a point in the
modulation graph, a tagged variant carrying compact indices (an id, an
owning region and a controller parameter).  Its defining header is absent
from the sources; only its decidable equality matters to the claims. -/
structure ModKey where
  id : Int
  region : Int
  cc : Int
deriving DecidableEq, Repr

/-- Embeds `sfz::Region::Connection` (spec §3): an edge of the modulation graph. -/
structure Connection where
  source : ModKey
  target : ModKey
  sourceDepth : ℚ
  velToDepth : ℚ
  sourceDepthMod : Option ModKey
deriving DecidableEq, Repr

/-- The default-constructed `Connection` of `getOrCreateConnection`
(Region.cpp:1832) before `source` and `target` are assigned; the remaining
fields keep their default values. -/
def freshConnection (source target : ModKey) : Connection :=
  ⟨source, target, 0, 0, none⟩

/-- Embeds `sfz::Region::getConnection` (Region.cpp:1821): the first connection in
the list with the given source and target, if any. -/
def getConnection (connections : List Connection) (source target : ModKey) :
    Option Connection :=
  connections.find? fun c => c.source == source && c.target == target

/-- Embeds `sfz::Region::getOrCreateConnection` (Region.cpp:1832) acting on the
region's connection list: return the list unchanged when a matching
connection exists, otherwise append a fresh one. -/
def getOrCreateConnection (connections : List Connection) (source target : ModKey) :
    List Connection :=
  match getConnection connections source target with
  | some _ => connections
  | none => connections ++ [freshConnection source target]

/-- At most one connection per (source, target) pair — the spec's
connection-list invariant. -/
def connectionKeysUnique (connections : List Connection) : Prop :=
  connections.Pairwise fun a b => ¬(a.source = b.source ∧ a.target = b.target)

instance (connections : List Connection) : Decidable (connectionKeysUnique connections) := by
  unfold connectionKeysUnique; infer_instance

/-- Models `sfz::Range<float>` (header absent from the sources): a closed
interval with a start and an end; `stop` stands for the C++ `end`. -/
structure FRange where
  start : ℚ
  stop : ℚ
deriving DecidableEq, Repr

/-- The region slice touched by the `/region&/cc_range&` endpoint: the
per-CC condition ranges (`region.ccConditions`). -/
structure RegionCCConditions where
  ccConditions : Int → FRange

/-- The `MATCH("/region&/cc_range&", "ff")` setter (SynthMessaging.cpp:579):
on a CC index below `config::numCCs` it sets the condition range's start to
the `Default::loCC`-transformed `args[0].f` and its end to the
`Default::hiCC`-transformed `args[0].f`.  The opcode transforms (Opcode.h,
absent from the sources) are passed in as `transformLoCC`/`transformHiCC`;
`arg0`/`arg1` are the two floats of the `"ff"` signature. -/
def setCcRange (transformLoCC transformHiCC : ℚ → ℚ) (region : RegionCCConditions)
    (ccIndex : Int) (arg0 arg1 : ℚ) : RegionCCConditions :=
  if ccIndex < numCCs then
    { region with ccConditions :=
        Function.update region.ccConditions ccIndex ⟨transformLoCC arg0, transformHiCC arg0⟩ }
  else region

/-- Embeds `sfz::TriggerEventType` as used by the `/voice&/trigger_type` query. -/
inductive TriggerEventType where
  | cc
  | noteOn
  | noteOff
deriving DecidableEq, Repr

/-- The string sent by the `MATCH("/voice&/trigger_type", "")` handler
(SynthMessaging.cpp:2369) for each trigger event type. -/
def triggerTypeString : TriggerEventType → String
  | .cc => "cc"
  | .noteOn => "note_on"
  | .noteOff => "note_on"

/-- The spec's event-vector invariant: non-empty with a base entry at delay
0 (the head exists and has delay 0) and strictly sorted by delay. -/
def EventVecInv (events : EventVector) : Prop :=
  events.head?.map MidiEvent.delay = some 0 ∧ sortedByDelay events

instance (events : EventVector) : Decidable (EventVecInv events) := by
  unfold EventVecInv; infer_instance

/-- The per-note part of the MidiState invariant, for the note slot `n`:
every per-note vector satisfies the event-vector invariant; a controller
outside the active-CC list still holds its reset vector `[{0, 0}]`; an
inactive per-note bend ends at value 0; a non-overridden base pitch ends at
the note number itself.  The auxiliary clauses are exactly what makes each
conditional per-note getter agree with its vector's last entry. -/
def PerNoteInv (n : Int) (pn : PerNoteState) : Prop :=
  (∀ cc, EventVecInv (pn.ccEvents cc)) ∧
  EventVecInv pn.basePitchEvents ∧
  EventVecInv pn.pitchBendEvents ∧
  (∀ cc, cc ∉ pn.activeCCs → pn.ccEvents cc = [⟨0, 0⟩]) ∧
  (pn.bendActive = false → lastValue pn.pitchBendEvents = 0) ∧
  (pn.basePitchOverridden = false → lastValue pn.basePitchEvents = (n : ℚ))

/-- The spec's MidiState invariant: every event vector is non-empty,
strictly sorted by delay with a base entry at delay 0 (plus the per-note
auxiliary clauses of `PerNoteInv`). -/
def MidiStateInv (s : MidiState) : Prop :=
  (∀ cc, EventVecInv (s.ccEvents cc)) ∧
  EventVecInv s.pitchEvents ∧
  EventVecInv s.channelAftertouchEvents ∧
  (∀ n, EventVecInv (s.polyAftertouchEvents n)) ∧
  (∀ n, PerNoteInv n (s.perNoteState n))

/-- Each event vector's last entry is the current value returned by the
corresponding getter (per-note getters quantified over in-range notes,
matching the C++ array bounds). -/
def gettersMatchLast (s : MidiState) : Prop :=
  (∀ cc, MidiState.getCCValue s cc = lastValue (s.ccEvents cc)) ∧
  MidiState.getPitchBend s = lastValue s.pitchEvents ∧
  MidiState.getChannelAftertouch s = lastValue s.channelAftertouchEvents ∧
  (∀ n, 0 ≤ n → n ≤ 127 →
    MidiState.getPolyAftertouch s n = lastValue (s.polyAftertouchEvents n)) ∧
  (∀ n cc, 0 ≤ n → n < 128 →
    MidiState.getPerNoteCCValue s n cc = lastValue ((s.perNoteState n).ccEvents cc)) ∧
  (∀ n, 0 ≤ n → n < 128 →
    MidiState.getPerNotePitchBend s n = lastValue ((s.perNoteState n).pitchBendEvents)) ∧
  (∀ n, 0 ≤ n → n < 128 →
    MidiState.getNoteBasePitch s n = lastValue ((s.perNoteState n).basePitchEvents))

/-- The concrete run refuting C3 as stated: a fresh state at 48 kHz,
`noteOn(0, 60, 1); noteOff(300, 60, 0); advanceTime(1024)`. -/
def c3State : MidiState :=
  MidiState.advanceTime
    (MidiState.noteOffEvent
      (MidiState.noteOnEvent (MidiState.setSampleRate initMidiState 48000) 0 60 1 0 0)
      300 60 0 0 0)
    1024

theorem EventVecInv.ne_nil {events : EventVector} (h : EventVecInv events) : events ≠ [] := by
  intro hnil
  rw [hnil] at h
  simp [EventVecInv] at h

theorem EventVecInv_singleton (v : ℚ) : EventVecInv [⟨0, v⟩] := by
  constructor
  · rfl
  · simp [sortedByDelay]

theorem insertEventInVector_nil (d : Int) (v : ℚ) :
    insertEventInVector [] d v = [⟨d, v⟩] := rfl

theorem insertEventInVector_cons_lt {e : MidiEvent} {d : Int} (rest : EventVector) (v : ℚ)
    (h : e.delay < d) :
    insertEventInVector (e :: rest) d v = e :: insertEventInVector rest d v := by
  simp [insertEventInVector, h]

theorem insertEventInVector_cons_gt {e : MidiEvent} {d : Int} (rest : EventVector) (v : ℚ)
    (h : d < e.delay) :
    insertEventInVector (e :: rest) d v = ⟨d, v⟩ :: e :: rest := by
  have h1 : ¬e.delay < d := by omega
  have h2 : e.delay ≠ d := by omega
  simp [insertEventInVector, h1, h2]

theorem insertEventInVector_cons_eq {e : MidiEvent} {d : Int} (rest : EventVector) (v : ℚ)
    (h : e.delay = d) :
    insertEventInVector (e :: rest) d v = ⟨e.delay, v⟩ :: rest := by
  have h1 : ¬e.delay < d := by omega
  simp [insertEventInVector, h1, h]

theorem insertEventInVector_ne_nil (events : EventVector) (d : Int) (v : ℚ) :
    insertEventInVector events d v ≠ [] := by
  cases events with
  | nil => simp [insertEventInVector_nil]
  | cons e rest =>
    rcases lt_trichotomy e.delay d with h | h | h
    · rw [insertEventInVector_cons_lt rest v h]; simp
    · rw [insertEventInVector_cons_eq rest v h]; simp
    · rw [insertEventInVector_cons_gt rest v h]; simp

theorem mem_insertEventInVector {x : MidiEvent} {events : EventVector} {d : Int} {v : ℚ}
    (h : x ∈ insertEventInVector events d v) :
    x ∈ events ∨ x = ⟨d, v⟩ := by
  induction events with
  | nil =>
    rw [insertEventInVector_nil] at h
    simp at h
    exact Or.inr h
  | cons e rest ih =>
    rcases lt_trichotomy e.delay d with hc | hc | hc
    · rw [insertEventInVector_cons_lt rest v hc] at h
      rcases List.mem_cons.mp h with h1 | h2
      · exact Or.inl (h1 ▸ List.mem_cons_self e rest)
      · rcases ih h2 with h3 | h4
        · exact Or.inl (List.mem_cons_of_mem e h3)
        · exact Or.inr h4
    · rw [insertEventInVector_cons_eq rest v hc] at h
      rcases List.mem_cons.mp h with h1 | h2
      · exact Or.inr (by rw [h1, hc])
      · exact Or.inl (List.mem_cons_of_mem e h2)
    · rw [insertEventInVector_cons_gt rest v hc] at h
      rcases List.mem_cons.mp h with h1 | h2
      · exact Or.inr h1
      · exact Or.inl h2

theorem sortedByDelay_insertEventInVector {events : EventVector} (d : Int) (v : ℚ)
    (h : sortedByDelay events) :
    sortedByDelay (insertEventInVector events d v) := by
  induction events with
  | nil =>
    rw [insertEventInVector_nil]
    simp [sortedByDelay]
  | cons e rest ih =>
    rw [sortedByDelay, List.pairwise_cons] at h
    obtain ⟨hhead, htail⟩ := h
    rcases lt_trichotomy e.delay d with hc | hc | hc
    · rw [insertEventInVector_cons_lt rest v hc, sortedByDelay, List.pairwise_cons]
      refine ⟨?_, ih htail⟩
      intro x hx
      rcases mem_insertEventInVector hx with h1 | h2
      · exact hhead x h1
      · rw [h2]; exact hc
    · rw [insertEventInVector_cons_eq rest v hc, sortedByDelay, List.pairwise_cons]
      exact ⟨hhead, htail⟩
    · rw [insertEventInVector_cons_gt rest v hc, sortedByDelay, List.pairwise_cons]
      constructor
      · intro x hx
        show d < x.delay
        rcases List.mem_cons.mp hx with h1 | h2
        · rw [h1]; exact hc
        · have := hhead x h2
          omega
      · exact List.pairwise_cons.mpr ⟨hhead, htail⟩

theorem headDelayZero_insertEventInVector {events : EventVector} {d : Int} (v : ℚ)
    (hd : 0 ≤ d) (h : events.head?.map MidiEvent.delay = some 0) :
    (insertEventInVector events d v).head?.map MidiEvent.delay = some 0 := by
  cases events with
  | nil => simp at h
  | cons e rest =>
    have he : e.delay = 0 := by
      simpa using h
    rcases lt_trichotomy e.delay d with hc | hc | hc
    · rw [insertEventInVector_cons_lt rest v hc]
      simpa using he
    · rw [insertEventInVector_cons_eq rest v hc]
      simpa using he
    · omega

theorem EventVecInv_insertEventInVector {events : EventVector} {d : Int} (v : ℚ)
    (hd : 0 ≤ d) (h : EventVecInv events) :
    EventVecInv (insertEventInVector events d v) :=
  ⟨headDelayZero_insertEventInVector v hd h.1, sortedByDelay_insertEventInVector d v h.2⟩

theorem lastValue_cons_of_ne_nil {e : MidiEvent} {l : EventVector} (h : l ≠ []) :
    lastValue (e :: l) = lastValue l := by
  cases l with
  | nil => exact absurd rfl h
  | cons f rest =>
    rw [lastValue, lastValue, List.getLast?_cons_cons]

theorem lastValue_insertEventInVector_final {events : EventVector} {d : Int} {v : ℚ}
    (hs : sortedByDelay events) (hfinal : ∀ e ∈ events, e.delay ≤ d) :
    lastValue (insertEventInVector events d v) = v := by
  induction events with
  | nil => rfl
  | cons e rest ih =>
    rw [sortedByDelay, List.pairwise_cons] at hs
    obtain ⟨hhead, htail⟩ := hs
    have he : e.delay ≤ d := hfinal e (List.mem_cons_self e rest)
    rcases lt_trichotomy e.delay d with hc | hc | hc
    · rw [insertEventInVector_cons_lt rest v hc,
        lastValue_cons_of_ne_nil (insertEventInVector_ne_nil rest d v)]
      exact ih htail fun x hx => hfinal x (List.mem_cons_of_mem e hx)
    · have hrest : rest = [] := by
        cases rest with
        | nil => rfl
        | cons f rfest =>
          have h1 := hhead f (List.mem_cons_self f rfest)
          have h2 := hfinal f (List.mem_cons_of_mem e (List.mem_cons_self f rfest))
          omega
      rw [hrest, insertEventInVector_cons_eq [] v hc]
      rfl
    · omega

theorem insertEventInVector_idem (events : EventVector) (d : Int) (v : ℚ) :
    insertEventInVector (insertEventInVector events d v) d v =
      insertEventInVector events d v := by
  induction events with
  | nil =>
    rw [insertEventInVector_nil]
    rw [insertEventInVector_cons_eq [] v rfl]
  | cons e rest ih =>
    rcases lt_trichotomy e.delay d with hc | hc | hc
    · rw [insertEventInVector_cons_lt rest v hc,
        insertEventInVector_cons_lt (insertEventInVector rest d v) v hc, ih]
    · rw [insertEventInVector_cons_eq rest v hc]
      exact insertEventInVector_cons_eq rest v hc
    · rw [insertEventInVector_cons_gt rest v hc]
      exact insertEventInVector_cons_eq (e :: rest) v rfl

theorem insertEventInVector_replaces {events : EventVector} {d : Int} (v : ℚ)
    (hs : sortedByDelay events) (hmem : d ∈ events.map MidiEvent.delay) :
    insertEventInVector events d v =
      events.map fun e => if e.delay = d then ⟨d, v⟩ else e := by
  induction events with
  | nil => simp at hmem
  | cons e rest ih =>
    rw [sortedByDelay, List.pairwise_cons] at hs
    obtain ⟨hhead, htail⟩ := hs
    rcases lt_trichotomy e.delay d with hc | hc | hc
    · have hne : e.delay ≠ d := by omega
      have hmem2 : d ∈ rest.map MidiEvent.delay := by
        rcases List.mem_map.mp hmem with ⟨x, hx, hxd⟩
        rcases List.mem_cons.mp hx with h1 | h2
        · rw [h1] at hxd; omega
        · exact List.mem_map.mpr ⟨x, h2, hxd⟩
      rw [insertEventInVector_cons_lt rest v hc]
      simp only [List.map_cons, if_neg hne]
      rw [ih htail hmem2]
    · have hmap : rest.map (fun e => if e.delay = d then (⟨d, v⟩ : MidiEvent) else e) = rest := by
        have : ∀ x ∈ rest, (if x.delay = d then (⟨d, v⟩ : MidiEvent) else x) = id x := by
          intro x hx
          have := hhead x hx
          have hxd : x.delay ≠ d := by omega
          simp [hxd]
        rw [List.map_congr_left this, List.map_id]
      rw [insertEventInVector_cons_eq rest v hc]
      simp [hmap, hc]
    · exfalso
      rcases List.mem_map.mp hmem with ⟨x, hx, hxd⟩
      rcases List.mem_cons.mp hx with h1 | h2
      · rw [h1] at hxd; omega
      · have := hhead x h2
        omega

theorem valueFrom_nil (base : ℚ) (d : Int) : valueFrom base [] d = base := rfl

theorem valueFrom_cons (base : ℚ) (e : MidiEvent) (rest : EventVector) (d : Int) :
    valueFrom base (e :: rest) d =
      valueFrom (if e.delay ≤ d then e.value else base) rest d := rfl

theorem valueFrom_eq_base {base : ℚ} {events : EventVector} {d : Int}
    (h : ∀ e ∈ events, d < e.delay) :
    valueFrom base events d = base := by
  induction events generalizing base with
  | nil => rfl
  | cons e rest ih =>
    rw [valueFrom_cons]
    have he : d < e.delay := h e (List.mem_cons_self e rest)
    have hne : ¬e.delay ≤ d := by omega
    rw [if_neg hne]
    exact ih fun x hx => h x (List.mem_cons_of_mem e hx)

theorem valueFrom_map_add_left (p base : ℚ) (events : EventVector) (d : Int) :
    valueFrom (p + base) (events.map fun e => ⟨e.delay, p + e.value⟩) d =
      p + valueFrom base events d := by
  induction events generalizing base with
  | nil => rfl
  | cons e rest ih =>
    simp only [List.map_cons, valueFrom_cons]
    by_cases h : e.delay ≤ d
    · simp only [if_pos h]
      exact ih e.value
    · simp only [if_neg h]
      exact ih base

theorem valueFrom_map_add_right (p base : ℚ) (events : EventVector) (d : Int) :
    valueFrom (base + p) (events.map fun e => ⟨e.delay, e.value + p⟩) d =
      valueFrom base events d + p := by
  induction events generalizing base with
  | nil => rfl
  | cons e rest ih =>
    simp only [List.map_cons, valueFrom_cons]
    by_cases h : e.delay ≤ d
    · simp only [if_pos h]
      exact ih e.value
    · simp only [if_neg h]
      exact ih base

theorem delay_mem_mergeTails {p1 p2 : ℚ} {l1 l2 : EventVector} {x : MidiEvent}
    (h : x ∈ mergeTails p1 p2 l1 l2) :
    (∃ e ∈ l1, x.delay = e.delay) ∨ ∃ e ∈ l2, x.delay = e.delay := by
  induction p1, p2, l1, l2 using mergeTails.induct with
  | case1 p1 p2 l2 =>
    rw [mergeTails] at h
    rcases List.mem_map.mp h with ⟨e, he, hx⟩
    exact Or.inr ⟨e, he, by rw [← hx]⟩
  | case2 p1 p2 e1 r1 =>
    rw [mergeTails] at h
    rcases List.mem_map.mp h with ⟨e, he, hx⟩
    exact Or.inl ⟨e, he, by rw [← hx]⟩
  | case3 p1 p2 e1 r1 e2 r2 heq ih =>
    rw [mergeTails, if_pos heq] at h
    rcases List.mem_cons.mp h with h1 | h2
    · exact Or.inl ⟨e1, List.mem_cons_self e1 r1, by rw [h1]⟩
    · rcases ih h2 with ⟨e, he, hx⟩ | ⟨e, he, hx⟩
      · exact Or.inl ⟨e, List.mem_cons_of_mem e1 he, hx⟩
      · exact Or.inr ⟨e, List.mem_cons_of_mem e2 he, hx⟩
  | case4 p1 p2 e1 r1 e2 r2 heq hlt ih =>
    rw [mergeTails, if_neg heq, if_pos hlt] at h
    rcases List.mem_cons.mp h with h1 | h2
    · exact Or.inl ⟨e1, List.mem_cons_self e1 r1, by rw [h1]⟩
    · rcases ih h2 with ⟨e, he, hx⟩ | ⟨e, he, hx⟩
      · exact Or.inl ⟨e, List.mem_cons_of_mem e1 he, hx⟩
      · exact Or.inr ⟨e, he, hx⟩
  | case5 p1 p2 e1 r1 e2 r2 heq hlt ih =>
    rw [mergeTails, if_neg heq, if_neg hlt] at h
    rcases List.mem_cons.mp h with h1 | h2
    · exact Or.inr ⟨e2, List.mem_cons_self e2 r2, by rw [h1]⟩
    · rcases ih h2 with ⟨e, he, hx⟩ | ⟨e, he, hx⟩
      · exact Or.inl ⟨e, he, hx⟩
      · exact Or.inr ⟨e, List.mem_cons_of_mem e2 he, hx⟩

theorem mergeTails_valueFrom {l1 l2 : EventVector} (p1 p2 : ℚ) (d : Int)
    (h1 : sortedByDelay l1) (h2 : sortedByDelay l2) :
    valueFrom (p1 + p2) (mergeTails p1 p2 l1 l2) d =
      valueFrom p1 l1 d + valueFrom p2 l2 d := by
  induction p1, p2, l1, l2 using mergeTails.induct with
  | case1 p1 p2 l2 =>
    rw [mergeTails, valueFrom_nil, valueFrom_map_add_left]
  | case2 p1 p2 e1 r1 =>
    rw [mergeTails, valueFrom_nil, valueFrom_map_add_right]
  | case3 p1 p2 e1 r1 e2 r2 heq ih =>
    rw [sortedByDelay, List.pairwise_cons] at h1 h2
    obtain ⟨hh1, ht1⟩ := h1
    obtain ⟨hh2, ht2⟩ := h2
    rw [mergeTails, if_pos heq, valueFrom_cons, valueFrom_cons, valueFrom_cons]
    by_cases hd : e1.delay ≤ d
    · have hd2 : e2.delay ≤ d := by omega
      rw [if_pos hd, if_pos hd, if_pos hd2]
      exact ih ht1 ht2
    · have hd2 : ¬e2.delay ≤ d := by omega
      rw [if_neg hd, if_neg hd, if_neg hd2]
      have hall : ∀ x ∈ mergeTails e1.value e2.value r1 r2, d < x.delay := by
        intro x hx
        rcases delay_mem_mergeTails hx with ⟨e, he, hxe⟩ | ⟨e, he, hxe⟩
        · have := hh1 e he; omega
        · have := hh2 e he; omega
      rw [valueFrom_eq_base hall, valueFrom_eq_base fun x hx => by have := hh1 x hx; omega,
        valueFrom_eq_base fun x hx => by have := hh2 x hx; omega]
  | case4 p1 p2 e1 r1 e2 r2 heq hlt ih =>
    rw [sortedByDelay, List.pairwise_cons] at h1
    obtain ⟨hh1, ht1⟩ := h1
    rw [mergeTails, if_neg heq, if_pos hlt, valueFrom_cons, valueFrom_cons]
    by_cases hd : e1.delay ≤ d
    · rw [if_pos hd, if_pos hd]
      exact ih ht1 h2
    · rw [if_neg hd, if_neg hd]
      have hall : ∀ x ∈ mergeTails e1.value p2 r1 (e2 :: r2), d < x.delay := by
        intro x hx
        rcases delay_mem_mergeTails hx with ⟨e, he, hxe⟩ | ⟨e, he, hxe⟩
        · have := hh1 e he; omega
        · rcases List.mem_cons.mp he with h3 | h4
          · rw [h3] at hxe; omega
          · rw [sortedByDelay, List.pairwise_cons] at h2
            have := h2.1 e h4
            omega
      rw [valueFrom_eq_base hall,
        valueFrom_eq_base fun x hx => by have := hh1 x hx; omega]
      have hall2 : ∀ x ∈ e2 :: r2, d < x.delay := by
        intro x hx
        rcases List.mem_cons.mp hx with h3 | h4
        · rw [h3]; omega
        · rw [sortedByDelay, List.pairwise_cons] at h2
          have := h2.1 x h4
          omega
      rw [valueFrom_eq_base hall2]
  | case5 p1 p2 e1 r1 e2 r2 heq hlt ih =>
    have hgt : e2.delay < e1.delay := by omega
    rw [sortedByDelay, List.pairwise_cons] at h2
    obtain ⟨hh2, ht2⟩ := h2
    have hrhs : valueFrom p2 (e2 :: r2) d =
        valueFrom (if e2.delay ≤ d then e2.value else p2) r2 d :=
      valueFrom_cons p2 e2 r2 d
    rw [mergeTails, if_neg heq, if_neg hlt, valueFrom_cons, hrhs]
    by_cases hd : e2.delay ≤ d
    · rw [if_pos hd, if_pos hd]
      exact ih h1 ht2
    · rw [if_neg hd, if_neg hd]
      have hall : ∀ x ∈ mergeTails p1 e2.value (e1 :: r1) r2, d < x.delay := by
        intro x hx
        rcases delay_mem_mergeTails hx with ⟨e, he, hxe⟩ | ⟨e, he, hxe⟩
        · rcases List.mem_cons.mp he with h3 | h4
          · rw [h3] at hxe; omega
          · rw [sortedByDelay, List.pairwise_cons] at h1
            have := h1.1 e h4
            omega
        · have := hh2 e he; omega
      have hall1 : ∀ x ∈ e1 :: r1, d < x.delay := by
        intro x hx
        rcases List.mem_cons.mp hx with h3 | h4
        · rw [h3]; omega
        · rw [sortedByDelay, List.pairwise_cons] at h1
          have := h1.1 x h4
          omega
      rw [valueFrom_eq_base hall, valueFrom_eq_base hall1,
        valueFrom_eq_base fun x hx => by have := hh2 x hx; omega]

/-- The core correctness of `additiveMergeEvents` under the event-vector
invariant: the merged vector's last-known value at every delay is the sum
of the inputs' last-known values. -/
theorem additiveMergeEvents_lastKnown {a b : EventVector}
    (ha : EventVecInv a) (hb : EventVecInv b) (d : Int) :
    lastKnownValue (additiveMergeEvents a b) d =
      lastKnownValue a d + lastKnownValue b d := by
  obtain ⟨ha0, has⟩ := ha
  obtain ⟨hb0, hbs⟩ := hb
  cases a with
  | nil => simp at ha0
  | cons e1 r1 =>
    cases b with
    | nil => simp at hb0
    | cons e2 r2 =>
      have he1 : e1.delay = 0 := by simpa using ha0
      have he2 : e2.delay = 0 := by simpa using hb0
      rw [sortedByDelay, List.pairwise_cons] at has hbs
      rw [additiveMergeEvents, lastKnownValue, lastKnownValue, lastKnownValue,
        valueFrom_cons, valueFrom_cons, valueFrom_cons]
      by_cases hd : (0 : Int) ≤ d
      · have h1 : (⟨0, e1.value + e2.value⟩ : MidiEvent).delay ≤ d := hd
        have h2 : e1.delay ≤ d := by omega
        have h3 : e2.delay ≤ d := by omega
        rw [if_pos h1, if_pos h2, if_pos h3]
        exact mergeTails_valueFrom e1.value e2.value d has.2 hbs.2
      · have h1 : ¬(⟨0, e1.value + e2.value⟩ : MidiEvent).delay ≤ d := hd
        have h2 : ¬e1.delay ≤ d := by omega
        have h3 : ¬e2.delay ≤ d := by omega
        rw [if_neg h1, if_neg h2, if_neg h3]
        have hall : ∀ x ∈ mergeTails e1.value e2.value r1 r2, d < x.delay := by
          intro x hx
          rcases delay_mem_mergeTails hx with ⟨e, he, hxe⟩ | ⟨e, he, hxe⟩
          · have := has.1 e he; omega
          · have := hbs.1 e he; omega
        rw [valueFrom_eq_base hall,
          valueFrom_eq_base fun x hx => by have := has.1 x hx; omega,
          valueFrom_eq_base fun x hx => by have := hbs.1 x hx; omega]
        ring

theorem lastValue_flushEventVector {events : EventVector} (h : events ≠ []) :
    lastValue (flushEventVector events) = lastValue events := by
  cases events with
  | nil => exact absurd rfl h
  | cons e rest => rfl

theorem EventVecInv_flushEventVector {events : EventVector} (h : events ≠ []) :
    EventVecInv (flushEventVector events) := by
  cases events with
  | nil => exact absurd rfl h
  | cons e rest => exact EventVecInv_singleton _

theorem lowerBoundEvent_eq_none {events : EventVector} {t : Int}
    (h : ∀ e ∈ events, e.delay < t) :
    lowerBoundEvent events t = none := by
  induction events with
  | nil => rfl
  | cons e rest ih =>
    rw [lowerBoundEvent, if_pos (h e (List.mem_cons_self e rest))]
    exact ih fun x hx => h x (List.mem_cons_of_mem e hx)

theorem lowerBoundEvent_earliest {events : EventVector} {t : Int} {e : MidiEvent}
    (hs : sortedByDelay events) (he : e ∈ events) (het : t ≤ e.delay)
    (hmin : ∀ x ∈ events, t ≤ x.delay → e.delay ≤ x.delay) :
    lowerBoundEvent events t = some e := by
  induction events with
  | nil => simp at he
  | cons h rest ih =>
    rw [sortedByDelay, List.pairwise_cons] at hs
    obtain ⟨hhead, htail⟩ := hs
    by_cases hlt : h.delay < t
    · have hne : e ≠ h := by
        intro heq
        rw [heq] at het
        omega
      have herest : e ∈ rest := by
        rcases List.mem_cons.mp he with h1 | h2
        · exact absurd h1 hne
        · exact h2
      rw [lowerBoundEvent, if_pos hlt]
      exact ih htail herest fun x hx hxt => hmin x (List.mem_cons_of_mem h hx) hxt
    · rw [lowerBoundEvent, if_neg hlt]
      have h1 : e.delay ≤ h.delay := hmin h (List.mem_cons_self h rest) (by omega)
      rcases List.mem_cons.mp he with h2 | h3
    /- `e` cannot sit in the tail: the tail's delays strictly exceed the
       head's, contradicting minimality. -/
      · rw [h2]
      · have := hhead e h3
        omega

theorem valueAtOrAfter_earliest {events : EventVector} {t : Int} {e : MidiEvent}
    (hs : sortedByDelay events) (he : e ∈ events) (het : t ≤ e.delay)
    (hmin : ∀ x ∈ events, t ≤ x.delay → e.delay ≤ x.delay) :
    valueAtOrAfter events t = e.value := by
  rw [valueAtOrAfter, lowerBoundEvent_earliest hs he het hmin]

theorem valueAtOrAfter_fallback {events : EventVector} {t : Int}
    (h : ∀ e ∈ events, e.delay < t) :
    valueAtOrAfter events t = lastValue events := by
  rw [valueAtOrAfter, lowerBoundEvent_eq_none h]

/-- Claim C1. For every CC number `c` in range and every delay `t` within the
block, after `ccEvent(t, c, v)` where the inserted event is the final
(largest-delay) event in `c`'s event vector, followed by
`advanceTime(blockSize)`, `getCCValue(c)` returns `v`. -/
theorem ccEvent_final_advanceTime_getCCValue (s : MidiState) (t c : Int) (v : ℚ)
    (blockSize : Int) (hc : 0 ≤ c ∧ c < numCCs) (ht : 0 ≤ t ∧ t < blockSize)
    (hsorted : sortedByDelay (s.ccEvents c))
    (hfinal : ∀ e ∈ s.ccEvents c, e.delay ≤ t) :
    MidiState.getCCValue (MidiState.advanceTime (MidiState.ccEvent s t c v) blockSize) c
      = v := by
  rw [MidiState.advanceTime, MidiState.getCCValue, MidiState.flushEvents]
  show lastValue (flushEventVector ((MidiState.ccEvent s t c v).ccEvents c)) = v
  have hcc : (MidiState.ccEvent s t c v).ccEvents c =
      insertEventInVector (s.ccEvents c) t v := by
    rw [MidiState.ccEvent]
    exact Function.update_same c _ s.ccEvents
  rw [hcc, lastValue_flushEventVector (insertEventInVector_ne_nil _ t v)]
  exact lastValue_insertEventInVector_final hsorted hfinal

/-- Witness for C1 at a concrete state and input. -/
theorem ccEvent_final_advanceTime_getCCValue_witness :
    ((0 : Int) ≤ 7 ∧ (7 : Int) < numCCs) ∧ ((0 : Int) ≤ 5 ∧ (5 : Int) < 16) ∧
    sortedByDelay (initMidiState.ccEvents 7) ∧
    (∀ e ∈ initMidiState.ccEvents 7, e.delay ≤ 5) ∧
    MidiState.getCCValue
      (MidiState.advanceTime (MidiState.ccEvent initMidiState 5 7 2) 16) 7 = 2 :=
  ⟨by decide, by decide, by decide, by decide,
    ccEvent_final_advanceTime_getCCValue initMidiState 5 7 2 16
      (by decide) (by decide) (by decide) (by decide)⟩

/-- Claim C2. For any two event vectors `a` and `b`, each non-empty, sorted by
delay, and starting with a base entry at delay 0, `additiveMergeEvents(a, b,
dest)` produces `dest` such that for every delay `d`, the last-known value
of `dest` at `d` equals the last-known value of `a` at `d` plus the
last-known value of `b` at `d`. -/
theorem additiveMergeEvents_pointwise_sum (a b : EventVector)
    (ha : EventVecInv a) (hb : EventVecInv b) (d : Int) :
    lastKnownValue (additiveMergeEvents a b) d =
      lastKnownValue a d + lastKnownValue b d :=
  additiveMergeEvents_lastKnown ha hb d

/-- Witness for C2 on concrete vectors. -/
theorem additiveMergeEvents_pointwise_sum_witness :
    EventVecInv [⟨0, 1⟩, ⟨2, 3⟩] ∧ EventVecInv [⟨0, 2⟩, ⟨5, 4⟩] ∧
    lastKnownValue (additiveMergeEvents [⟨0, 1⟩, ⟨2, 3⟩] [⟨0, 2⟩, ⟨5, 4⟩]) 3 =
      lastKnownValue [⟨0, 1⟩, ⟨2, 3⟩] 3 + lastKnownValue [⟨0, 2⟩, ⟨5, 4⟩] 3 :=
  ⟨by decide, by decide,
    additiveMergeEvents_pointwise_sum [⟨0, 1⟩, ⟨2, 3⟩] [⟨0, 2⟩, ⟨5, 4⟩]
      (by decide) (by decide) 3⟩

/-- Claim C4. Event insertion into a MidiState event vector keeps the vector
sorted by delay and overwrites on equal delay: inserting the same event
twice yields exactly the same vector as inserting it once, and inserting an
event whose delay already occurs replaces that entry's value without adding
an entry. -/
theorem insertEventInVector_sorted_overwrite (events : EventVector) (d : Int) (v : ℚ)
    (hs : sortedByDelay events) :
    sortedByDelay (insertEventInVector events d v) ∧
    insertEventInVector (insertEventInVector events d v) d v =
      insertEventInVector events d v ∧
    (d ∈ events.map MidiEvent.delay →
      insertEventInVector events d v =
        events.map fun e => if e.delay = d then ⟨d, v⟩ else e) :=
  ⟨sortedByDelay_insertEventInVector d v hs, insertEventInVector_idem events d v,
    fun hmem => insertEventInVector_replaces v hs hmem⟩

/-- Witness for C4 on a concrete vector. -/
theorem insertEventInVector_sorted_overwrite_witness :
    sortedByDelay [⟨0, 1⟩, ⟨3, 2⟩] ∧
    (sortedByDelay (insertEventInVector [⟨0, 1⟩, ⟨3, 2⟩] 3 5) ∧
      insertEventInVector (insertEventInVector [⟨0, 1⟩, ⟨3, 2⟩] 3 5) 3 5 =
        insertEventInVector [⟨0, 1⟩, ⟨3, 2⟩] 3 5 ∧
      ((3 : Int) ∈ [⟨0, 1⟩, ⟨3, 2⟩].map MidiEvent.delay →
        insertEventInVector [⟨0, 1⟩, ⟨3, 2⟩] 3 5 =
          [⟨0, 1⟩, ⟨3, 2⟩].map fun e => if e.delay = 3 then ⟨3, 5⟩ else e)) :=
  ⟨by decide, insertEventInVector_sorted_overwrite [⟨0, 1⟩, ⟨3, 2⟩] 3 5 (by decide)⟩

/-- Claim C5. `additiveMergeEvents` is commutative pointwise: merging `a` with
`b` and merging `b` with `a` define the same last-known-value function of
delay. -/
theorem additiveMergeEvents_comm_pointwise (a b : EventVector)
    (ha : EventVecInv a) (hb : EventVecInv b) (d : Int) :
    lastKnownValue (additiveMergeEvents a b) d =
      lastKnownValue (additiveMergeEvents b a) d := by
  rw [additiveMergeEvents_lastKnown ha hb d, additiveMergeEvents_lastKnown hb ha d]
  ring

/-- Witness for C5 on concrete vectors. -/
theorem additiveMergeEvents_comm_pointwise_witness :
    EventVecInv [⟨0, 1⟩, ⟨4, 7⟩] ∧ EventVecInv [⟨0, 2⟩, ⟨6, 3⟩] ∧
    lastKnownValue (additiveMergeEvents [⟨0, 1⟩, ⟨4, 7⟩] [⟨0, 2⟩, ⟨6, 3⟩]) 5 =
      lastKnownValue (additiveMergeEvents [⟨0, 2⟩, ⟨6, 3⟩] [⟨0, 1⟩, ⟨4, 7⟩]) 5 :=
  ⟨by decide, by decide,
    additiveMergeEvents_comm_pointwise [⟨0, 1⟩, ⟨4, 7⟩] [⟨0, 2⟩, ⟨6, 3⟩]
      (by decide) (by decide) 5⟩

/-- Claim C9. For a voice whose trigger event type is `NoteOff`, the
`/voice<N>/trigger_type` query replies with the string `"note_on"` — the
same string as for a `NoteOn`-triggered voice. -/
theorem triggerTypeString_noteOff_is_note_on :
    triggerTypeString TriggerEventType.noteOff = "note_on" ∧
    triggerTypeString TriggerEventType.noteOff = triggerTypeString TriggerEventType.noteOn :=
  ⟨rfl, rfl⟩

/-- Claim C10. `getCCValueAt(c, t)` returns the value of the earliest event in
`c`'s vector whose delay is at least `t`, and falls back to the last
event's value when no such event exists; `getPerNoteCCValueAt` has the same
at-or-after semantics for active per-note CCs. -/
theorem getCCValueAt_at_or_after (s : MidiState) (c t n cc : Int)
    (hs : sortedByDelay (s.ccEvents c))
    (hpn : sortedByDelay ((s.perNoteState n).ccEvents cc))
    (hn : 0 ≤ n ∧ n < 128) (hactive : cc ∈ (s.perNoteState n).activeCCs) :
    (∀ e ∈ s.ccEvents c, t ≤ e.delay →
      (∀ x ∈ s.ccEvents c, t ≤ x.delay → e.delay ≤ x.delay) →
      MidiState.getCCValueAt s c t = e.value) ∧
    ((∀ e ∈ s.ccEvents c, e.delay < t) →
      MidiState.getCCValueAt s c t = lastValue (s.ccEvents c)) ∧
    (∀ e ∈ (s.perNoteState n).ccEvents cc, t ≤ e.delay →
      (∀ x ∈ (s.perNoteState n).ccEvents cc, t ≤ x.delay → e.delay ≤ x.delay) →
      MidiState.getPerNoteCCValueAt s n cc t = e.value) ∧
    ((∀ e ∈ (s.perNoteState n).ccEvents cc, e.delay < t) →
      MidiState.getPerNoteCCValueAt s n cc t =
        lastValue ((s.perNoteState n).ccEvents cc)) := by
  have hnrange : ¬(n < 0 ∨ 128 ≤ n) := by omega
  refine ⟨?_, ?_, ?_, ?_⟩
  · intro e he het hmin
    rw [MidiState.getCCValueAt]
    exact valueAtOrAfter_earliest hs he het hmin
  · intro h
    rw [MidiState.getCCValueAt]
    exact valueAtOrAfter_fallback h
  · intro e he het hmin
    rw [MidiState.getPerNoteCCValueAt, if_neg hnrange, if_pos hactive]
    exact valueAtOrAfter_earliest hpn he het hmin
  · intro h
    rw [MidiState.getPerNoteCCValueAt, if_neg hnrange, if_pos hactive]
    exact valueAtOrAfter_fallback h

/-- Witness for C10 at a concrete state whose CC 4 vector and per-note CC
vector of note 60 hold events straddling the probe delay. -/
theorem getCCValueAt_at_or_after_witness :
    sortedByDelay ((MidiState.ccEvent initMidiState 8 4 2).ccEvents 4) ∧
    sortedByDelay
      (((MidiState.perNoteCCEvent (MidiState.ccEvent initMidiState 8 4 2)
            6 60 4 5).perNoteState 60).ccEvents 4) ∧
    ((0 : Int) ≤ 60 ∧ (60 : Int) < 128) ∧
    (4 : Int) ∈ ((MidiState.perNoteCCEvent (MidiState.ccEvent initMidiState 8 4 2)
        6 60 4 5).perNoteState 60).activeCCs ∧
    MidiState.getCCValueAt
      (MidiState.perNoteCCEvent (MidiState.ccEvent initMidiState 8 4 2)
        6 60 4 5) 4 3 = 2 :=
  ⟨by decide, by decide, by decide, by decide, by
    have h := getCCValueAt_at_or_after
      (MidiState.perNoteCCEvent (MidiState.ccEvent initMidiState 8 4 2) 6 60 4 5)
      4 3 60 4 (by decide) (by decide) (by decide) (by decide)
    exact h.1 ⟨8, 2⟩ (by decide) (by decide) (by decide)⟩

theorem getConnection_spec {conns : List Connection} {s t : ModKey} {c : Connection}
    (hf : getConnection conns s t = some c) :
    c ∈ conns ∧ c.source = s ∧ c.target = t := by
  rw [getConnection] at hf
  refine ⟨List.mem_of_find?_eq_some hf, ?_, ?_⟩
  · have h := List.find?_some hf
    simp only [Bool.and_eq_true, beq_iff_eq] at h
    exact h.1
  · have h := List.find?_some hf
    simp only [Bool.and_eq_true, beq_iff_eq] at h
    exact h.2

theorem connectionKeysUnique_getOrCreate (conns : List Connection) (s t : ModKey)
    (h : connectionKeysUnique conns) :
    connectionKeysUnique (getOrCreateConnection conns s t) := by
  rw [getOrCreateConnection]
  cases hf : getConnection conns s t with
  | some c => exact h
  | none =>
    rw [connectionKeysUnique, List.pairwise_append]
    refine ⟨h, List.pairwise_singleton _ _, ?_⟩
    intro a ha b hb
    rw [List.mem_singleton] at hb
    subst hb
    rw [getConnection, List.find?_eq_none] at hf
    have hna := hf a ha
    intro hcon
    apply hna
    obtain ⟨h1, h2⟩ := hcon
    rw [freshConnection] at h1 h2
    simp only [Bool.and_eq_true, beq_iff_eq]
    exact ⟨h1, h2⟩

theorem connectionKeysUnique_foldl (ops : List (ModKey × ModKey)) (conns : List Connection)
    (h : connectionKeysUnique conns) :
    connectionKeysUnique
      (ops.foldl (fun cs p => getOrCreateConnection cs p.1 p.2) conns) := by
  induction ops generalizing conns with
  | nil => exact h
  | cons p rest ih => exact ih _ (connectionKeysUnique_getOrCreate _ _ _ h)

/-- Claim C7. In a Region's modulation connection list there is at most one
connection per (source, target) pair: `getOrCreateConnection` returns the
existing connection when one with equal source and target is present and
appends a new connection only otherwise, so no sequence of
connection-creating operations produces two connections with the same
(source, target). -/
theorem getOrCreateConnection_unique (conns : List Connection) (source target : ModKey)
    (ops : List (ModKey × ModKey)) (h : connectionKeysUnique conns) :
    (∀ c, getConnection conns source target = some c →
      getOrCreateConnection conns source target = conns ∧
      c ∈ conns ∧ c.source = source ∧ c.target = target) ∧
    connectionKeysUnique (getOrCreateConnection conns source target) ∧
    connectionKeysUnique
      (ops.foldl (fun cs p => getOrCreateConnection cs p.1 p.2) conns) := by
  refine ⟨?_, connectionKeysUnique_getOrCreate conns source target h,
    connectionKeysUnique_foldl ops conns h⟩
  intro c hc
  obtain ⟨hmem, hsrc, htgt⟩ := getConnection_spec hc
  refine ⟨?_, hmem, hsrc, htgt⟩
  rw [getOrCreateConnection, hc]

/-- Witness for C7: two creations of the same edge on an empty list leave a
single connection. -/
theorem getOrCreateConnection_unique_witness :
    connectionKeysUnique [] ∧
    ((∀ c, getConnection [] ⟨1, 2, 3⟩ ⟨4, 5, 6⟩ = some c →
      getOrCreateConnection [] ⟨1, 2, 3⟩ ⟨4, 5, 6⟩ = [] ∧
      c ∈ ([] : List Connection) ∧ c.source = ⟨1, 2, 3⟩ ∧ c.target = ⟨4, 5, 6⟩) ∧
    connectionKeysUnique (getOrCreateConnection [] ⟨1, 2, 3⟩ ⟨4, 5, 6⟩) ∧
    connectionKeysUnique
      ([(⟨1, 2, 3⟩, ⟨4, 5, 6⟩), (⟨1, 2, 3⟩, ⟨4, 5, 6⟩)].foldl
        (fun cs p => getOrCreateConnection cs p.1 p.2) [])) :=
  ⟨by decide,
    getOrCreateConnection_unique [] ⟨1, 2, 3⟩ ⟨4, 5, 6⟩
      [(⟨1, 2, 3⟩, ⟨4, 5, 6⟩), (⟨1, 2, 3⟩, ⟨4, 5, 6⟩)] (by decide)⟩

/-- Claim C8. The set endpoint `/region<N>/cc_range<M>` with signature `"ff"`
reads `args[0].f` for both ends of the CC condition range: after
dispatching with arguments `(a, b)` and `M` below the CC count, the range's
start equals the loCC-transformed `a` and its end equals the
hiCC-transformed `a`, independent of the second argument `b`. -/
theorem setCcRange_reads_first_arg (transformLoCC transformHiCC : ℚ → ℚ)
    (region : RegionCCConditions) (m : Int) (a b1 b2 : ℚ)
    (hm0 : 0 ≤ m) (hm : m < numCCs) :
    ((setCcRange transformLoCC transformHiCC region m a b1).ccConditions m).start =
      transformLoCC a ∧
    ((setCcRange transformLoCC transformHiCC region m a b1).ccConditions m).stop =
      transformHiCC a ∧
    setCcRange transformLoCC transformHiCC region m a b1 =
      setCcRange transformLoCC transformHiCC region m a b2 := by
  refine ⟨?_, ?_, rfl⟩ <;> simp [setCcRange, hm]

/-- Witness for C8 at a concrete region and arguments. -/
theorem setCcRange_reads_first_arg_witness :
    (0 : Int) ≤ 3 ∧ (3 : Int) < numCCs ∧
    (((setCcRange (fun x => x) (fun x => x) ⟨fun _ => ⟨0, 0⟩⟩ 3 7 9).ccConditions 3).start =
        7 ∧
      ((setCcRange (fun x => x) (fun x => x) ⟨fun _ => ⟨0, 0⟩⟩ 3 7 9).ccConditions 3).stop =
        7 ∧
      setCcRange (fun x => x) (fun x => x) ⟨fun _ => ⟨0, 0⟩⟩ 3 7 9 =
        setCcRange (fun x => x) (fun x => x) ⟨fun _ => ⟨0, 0⟩⟩ 3 7 57) :=
  ⟨by decide, by decide,
    setCcRange_reads_first_arg (fun x => x) (fun x => x) ⟨fun _ => ⟨0, 0⟩⟩ 3 7 9 57
      (by decide) (by decide)⟩

theorem toUnsigned_zero : toUnsigned 0 = 0 := rfl

theorem toUnsigned_eq_toNat {k : Int} (h0 : 0 ≤ k) (h : k < 2 ^ 32) :
    toUnsigned k = k.toNat := by
  rw [toUnsigned, Int.emod_eq_of_lt h0 h]

theorem noteOnEvent_clock_proj (s : MidiState) (d n : Int) (v u b : ℚ)
    (hn : ¬(n < 0 ∨ 128 ≤ n)) :
    (MidiState.noteOnEvent s d n v u b).sampleRate = s.sampleRate ∧
    (MidiState.noteOnEvent s d n v u b).internalClock = s.internalClock ∧
    (MidiState.noteOnEvent s d n v u b).noteOnTimes n =
      (s.internalClock + toUnsigned d) % 2 ^ 32 := by
  rw [MidiState.noteOnEvent, if_neg hn]
  simp only [MidiState.ccEvent, MidiState.noteBasePitchEvent, if_neg hn]
  split <;> simp

theorem noteOffEvent_clock_proj (s : MidiState) (d n : Int) (v u b : ℚ)
    (hn : ¬(n < 0 ∨ 128 ≤ n)) :
    (MidiState.noteOffEvent s d n v u b).sampleRate = s.sampleRate ∧
    (MidiState.noteOffEvent s d n v u b).internalClock = s.internalClock ∧
    (MidiState.noteOffEvent s d n v u b).noteOnTimes = s.noteOnTimes := by
  rw [MidiState.noteOffEvent, if_neg hn]
  simp [MidiState.ccEvent]

theorem advanceTime_clock_proj (s : MidiState) (numSamples : Int) :
    (MidiState.advanceTime s numSamples).sampleRate = s.sampleRate ∧
    (MidiState.advanceTime s numSamples).internalClock =
      (s.internalClock + toUnsigned numSamples) % 2 ^ 32 ∧
    (MidiState.advanceTime s numSamples).noteOnTimes = s.noteOnTimes := by
  rw [MidiState.advanceTime, MidiState.flushEvents]
  simp

/-- Claim C3 counterexample. After `noteOn(0, n, v); noteOff(k, n, 0);
advanceTime(blockSize)`, the code's `getNoteDuration(n, k)` measures the
time since note-on — `(blockSize + k) / sampleRate` — and not
`k / sampleRate` as the claim states: at `n = 60`, `k = 300`,
`blockSize = 1024`, `sampleRate = 48000` it returns `1324 / 48000`. -/
theorem getNoteDuration_counterexample :
    MidiState.getNoteDuration c3State 60 300 ≠ (300 : ℚ) / 48000 := by
  have hn : ¬((60 : Int) < 0 ∨ (128 : Int) ≤ 60) := by decide
  have hclock : (c3State.internalClock + toUnsigned 300 +
      (2 ^ 32 - c3State.noteOnTimes 60 % 2 ^ 32)) % 2 ^ 32 = 1324 := by decide
  have hsr : c3State.sampleRate = 48000 := by decide
  rw [MidiState.getNoteDuration, if_neg hn]
  show ((((c3State.internalClock + toUnsigned 300 +
      (2 ^ 32 - c3State.noteOnTimes 60 % 2 ^ 32)) % 2 ^ 32 : ℕ) : ℚ) / c3State.sampleRate ≠ _)
  rw [hclock, hsr]
  norm_num

/-- Claim C3 amended. For every note number `n` in `[0, 128)` and velocity
`v`, after `noteOn(0, n, v); noteOff(k, n, 0); advanceTime(blockSize)`
(with `0 ≤ k`, `0 ≤ blockSize` and no 32-bit clock wrap-around), the call
`getNoteDuration(n, k)` returns `(blockSize + k) / sampleRate` — the time
since the note-on, not `k / sampleRate`. -/
theorem getNoteDuration_after_advanceTime (s : MidiState) (n k blockSize : Int)
    (v u1 b1 u2 b2 : ℚ) (hn : 0 ≤ n ∧ n < 128) (hk : 0 ≤ k) (hbs : 0 ≤ blockSize)
    (hbound : blockSize + k < 2 ^ 32) :
    MidiState.getNoteDuration
      (MidiState.advanceTime
        (MidiState.noteOffEvent (MidiState.noteOnEvent s 0 n v u1 b1) k n 0 u2 b2)
        blockSize) n k
      = ((blockSize + k : Int) : ℚ) / s.sampleRate := by
  have hn' : ¬(n < 0 ∨ 128 ≤ n) := by omega
  obtain ⟨hsr1, hcl1, hot1⟩ := noteOnEvent_clock_proj s 0 n v u1 b1 hn'
  obtain ⟨hsr2, hcl2, hot2⟩ :=
    noteOffEvent_clock_proj (MidiState.noteOnEvent s 0 n v u1 b1) k n 0 u2 b2 hn'
  obtain ⟨hsr3, hcl3, hot3⟩ :=
    advanceTime_clock_proj
      (MidiState.noteOffEvent (MidiState.noteOnEvent s 0 n v u1 b1) k n 0 u2 b2) blockSize
  rw [MidiState.getNoteDuration, if_neg hn']
  show ((_ : ℕ) : ℚ) / _ = _
  rw [hsr3, hsr2, hsr1, hcl3, hcl2, hcl1, hot3, hot2, hot1]
  rw [toUnsigned_zero, toUnsigned_eq_toNat hk (by omega),
    toUnsigned_eq_toNat hbs (by omega)]
  have harith : ((s.internalClock + blockSize.toNat) % 2 ^ 32 + k.toNat +
      (2 ^ 32 - (s.internalClock + 0) % 2 ^ 32 % 2 ^ 32)) % 2 ^ 32 =
      blockSize.toNat + k.toNat := by
    omega
  rw [harith]
  have hcast : ((blockSize.toNat + k.toNat : ℕ) : ℚ) = ((blockSize + k : Int) : ℚ) := by
    push_cast
    rw [← Int.cast_natCast blockSize.toNat, ← Int.cast_natCast k.toNat,
      Int.toNat_of_nonneg hbs, Int.toNat_of_nonneg hk]
  rw [hcast]

/-- Witness for the amended C3 at a concrete state and input. -/
theorem getNoteDuration_after_advanceTime_witness :
    (((0 : Int) ≤ 60 ∧ (60 : Int) < 128) ∧ (0 : Int) ≤ 300 ∧ (0 : Int) ≤ 1024 ∧
      (1024 + 300 : Int) < 2 ^ 32) ∧
    MidiState.getNoteDuration
      (MidiState.advanceTime
        (MidiState.noteOffEvent
          (MidiState.noteOnEvent (MidiState.setSampleRate initMidiState 48000) 0 60 1 0 0)
          300 60 0 0 0)
        1024) 60 300
      = ((1024 + 300 : Int) : ℚ) / (MidiState.setSampleRate initMidiState 48000).sampleRate :=
  ⟨⟨by decide, by decide, by decide, by decide⟩,
    getNoteDuration_after_advanceTime (MidiState.setSampleRate initMidiState 48000)
      60 300 1024 1 0 0 0 0 (by decide) (by decide) (by decide) (by decide)⟩

theorem lastValue_singleton (d : Int) (v : ℚ) : lastValue [⟨d, v⟩] = v := rfl

theorem mem_insertValueInVector {l : List Int} {x y : Int} :
    y ∈ insertValueInVector l x ↔ y ∈ l ∨ y = x := by
  rw [insertValueInVector]
  split
  · next hx =>
    constructor
    · exact Or.inl
    · intro h
      rcases h with h | h
      · exact h
      · exact h ▸ hx
  · simp

theorem midiStateInv_update_perNote {s : MidiState} (h : MidiStateInv s) {n : Int}
    {pn2 : PerNoteState} (hpn : PerNoteInv n pn2) :
    MidiStateInv { s with perNoteState := Function.update s.perNoteState n pn2 } := by
  obtain ⟨h1, h2, h3, h4, h5⟩ := h
  refine ⟨h1, h2, h3, h4, ?_⟩
  intro m
  show PerNoteInv m (Function.update s.perNoteState n pn2 m)
  by_cases hm : m = n
  · rw [hm, Function.update_same]
    exact hpn
  · rw [Function.update_noteq hm]
    exact h5 m

theorem midiStateInv_ccEvent {s : MidiState} (h : MidiStateInv s) {delay : Int}
    (hd : 0 ≤ delay) (cc : Int) (v : ℚ) :
    MidiStateInv (MidiState.ccEvent s delay cc v) := by
  obtain ⟨h1, h2, h3, h4, h5⟩ := h
  refine ⟨?_, h2, h3, h4, h5⟩
  intro cc2
  show EventVecInv
    (Function.update s.ccEvents cc (insertEventInVector (s.ccEvents cc) delay v) cc2)
  by_cases hcc : cc2 = cc
  · rw [hcc, Function.update_same]
    exact EventVecInv_insertEventInVector v hd (h1 cc)
  · rw [Function.update_noteq hcc]
    exact h1 cc2

theorem midiStateInv_pitchBendEvent {s : MidiState} (h : MidiStateInv s) {delay : Int}
    (hd : 0 ≤ delay) (v : ℚ) :
    MidiStateInv (MidiState.pitchBendEvent s delay v) := by
  obtain ⟨h1, h2, h3, h4, h5⟩ := h
  exact ⟨h1, EventVecInv_insertEventInVector v hd h2, h3, h4, h5⟩

theorem midiStateInv_channelAftertouchEvent {s : MidiState} (h : MidiStateInv s)
    {delay : Int} (hd : 0 ≤ delay) (v : ℚ) :
    MidiStateInv (MidiState.channelAftertouchEvent s delay v) := by
  obtain ⟨h1, h2, h3, h4, h5⟩ := h
  exact ⟨h1, h2, EventVecInv_insertEventInVector v hd h3, h4, h5⟩

theorem midiStateInv_polyAftertouchEvent {s : MidiState} (h : MidiStateInv s)
    {delay : Int} (hd : 0 ≤ delay) (n : Int) (v : ℚ) :
    MidiStateInv (MidiState.polyAftertouchEvent s delay n v) := by
  rw [MidiState.polyAftertouchEvent]
  split
  · exact h
  · obtain ⟨h1, h2, h3, h4, h5⟩ := h
    refine ⟨h1, h2, h3, ?_, h5⟩
    intro m
    show EventVecInv
      (Function.update s.polyAftertouchEvents n
        (insertEventInVector (s.polyAftertouchEvents n) delay v) m)
    by_cases hm : m = n
    · rw [hm, Function.update_same]
      exact EventVecInv_insertEventInVector v hd (h4 n)
    · rw [Function.update_noteq hm]
      exact h4 m

theorem midiStateInv_noteBasePitchEvent {s : MidiState} (h : MidiStateInv s)
    {delay : Int} (hd : 0 ≤ delay) (n : Int) (v : ℚ) :
    MidiStateInv (MidiState.noteBasePitchEvent s delay n v) := by
  rw [MidiState.noteBasePitchEvent]
  split
  · exact h
  · obtain ⟨hcc, hbp, hpb, hact, hba, hbpo⟩ := h.2.2.2.2 n
    refine midiStateInv_update_perNote h ?_
    refine ⟨hcc, EventVecInv_insertEventInVector v hd hbp, hpb, hact, hba, ?_⟩
    intro hfalse
    simp at hfalse

theorem midiStateInv_perNoteCCEvent {s : MidiState} (h : MidiStateInv s)
    {delay : Int} (hd : 0 ≤ delay) (n cc : Int) (v : ℚ) :
    MidiStateInv (MidiState.perNoteCCEvent s delay n cc v) := by
  rw [MidiState.perNoteCCEvent]
  split
  · exact h
  · obtain ⟨hcc, hbp, hpb, hact, hba, hbpo⟩ := h.2.2.2.2 n
    refine midiStateInv_update_perNote h ⟨?_, hbp, hpb, ?_, hba, hbpo⟩
    · intro cc2
      show EventVecInv
        (Function.update (s.perNoteState n).ccEvents cc
          (insertEventInVector ((s.perNoteState n).ccEvents cc) delay v) cc2)
      by_cases hcc2 : cc2 = cc
      · rw [hcc2, Function.update_same]
        exact EventVecInv_insertEventInVector v hd (hcc cc)
      · rw [Function.update_noteq hcc2]
        exact hcc cc2
    · intro cc2 hcc2
      rw [mem_insertValueInVector] at hcc2
      push_neg at hcc2
      show Function.update (s.perNoteState n).ccEvents cc
        (insertEventInVector ((s.perNoteState n).ccEvents cc) delay v) cc2 = [⟨0, 0⟩]
      rw [Function.update_noteq hcc2.2]
      exact hact cc2 hcc2.1

theorem midiStateInv_perNotePitchBendEvent {s : MidiState} (h : MidiStateInv s)
    {delay : Int} (hd : 0 ≤ delay) (n : Int) (v : ℚ) :
    MidiStateInv (MidiState.perNotePitchBendEvent s delay n v) := by
  rw [MidiState.perNotePitchBendEvent]
  split
  · exact h
  · obtain ⟨hcc, hbp, hpb, hact, hba, hbpo⟩ := h.2.2.2.2 n
    refine midiStateInv_update_perNote h
      ⟨hcc, hbp, EventVecInv_insertEventInVector v hd hpb, hact, ?_, hbpo⟩
    intro hfalse
    simp at hfalse

theorem perNoteInv_flushPerNote {n : Int} {pn : PerNoteState} (h : PerNoteInv n pn) :
    PerNoteInv n (MidiState.flushPerNote pn) := by
  obtain ⟨hcc, hbp, hpb, hact, hba, hbpo⟩ := h
  refine ⟨?_, ?_, ?_, ?_, ?_, ?_⟩
  · intro cc
    show EventVecInv
      (if cc ∈ pn.activeCCs then flushEventVector (pn.ccEvents cc) else pn.ccEvents cc)
    split
    · exact EventVecInv_flushEventVector (hcc cc).ne_nil
    · exact hcc cc
  · exact EventVecInv_flushEventVector hbp.ne_nil
  · exact EventVecInv_flushEventVector hpb.ne_nil
  · intro cc hcc2
    have hcc3 : cc ∉ pn.activeCCs := hcc2
    show (if cc ∈ pn.activeCCs then flushEventVector (pn.ccEvents cc) else pn.ccEvents cc)
      = [⟨0, 0⟩]
    rw [if_neg hcc3]
    exact hact cc hcc3
  · intro hfalse
    show lastValue (flushEventVector pn.pitchBendEvents) = 0
    by_cases hz : lastValue (flushEventVector pn.pitchBendEvents) = 0
    · exact hz
    · exfalso
      have : (if lastValue (flushEventVector pn.pitchBendEvents) = 0 then false
          else pn.bendActive) = false := hfalse
      rw [if_neg hz] at this
      have h0 := hba this
      rw [lastValue_flushEventVector hpb.ne_nil] at hz
      exact hz h0
  · intro hfalse
    show lastValue (flushEventVector pn.basePitchEvents) = (n : ℚ)
    rw [lastValue_flushEventVector hbp.ne_nil]
    exact hbpo hfalse

theorem midiStateInv_flushEvents {s : MidiState} (h : MidiStateInv s) :
    MidiStateInv (MidiState.flushEvents s) := by
  obtain ⟨h1, h2, h3, h4, h5⟩ := h
  exact ⟨fun cc => EventVecInv_flushEventVector (h1 cc).ne_nil,
    EventVecInv_flushEventVector h2.ne_nil,
    EventVecInv_flushEventVector h3.ne_nil,
    fun n => EventVecInv_flushEventVector (h4 n).ne_nil,
    fun n => perNoteInv_flushPerNote (h5 n)⟩

theorem midiStateInv_advanceTime {s : MidiState} (h : MidiStateInv s) (numSamples : Int) :
    MidiStateInv (MidiState.advanceTime s numSamples) := by
  rw [MidiState.advanceTime]
  exact midiStateInv_flushEvents h

theorem midiStateInv_resetEventStates (s : MidiState) (h : MidiStateInv s) :
    MidiStateInv (MidiState.resetEventStates s) := by
  obtain ⟨h1, h2, h3, h4, h5⟩ := h
  refine ⟨fun _ => EventVecInv_singleton 0, EventVecInv_singleton 0,
    EventVecInv_singleton 0, fun _ => EventVecInv_singleton 0, ?_⟩
  intro n
  obtain ⟨hcc, hbp, hpb, hact, hba, hbpo⟩ := h5 n
  exact ⟨fun _ => EventVecInv_singleton 0, hbp, EventVecInv_singleton 0,
    fun _ _ => rfl, fun _ => rfl, hbpo⟩

theorem midiStateInv_resetNoteStates (s : MidiState) (h : MidiStateInv s) :
    MidiStateInv (MidiState.resetNoteStates s) := by
  obtain ⟨h1, h2, h3, h4, h5⟩ := h
  refine ⟨?_, h2, h3, h4, ?_⟩
  · intro cc
    show EventVecInv (if _ then [⟨0, 0⟩] else s.ccEvents cc)
    split
    · exact EventVecInv_singleton 0
    · exact h1 cc
  · intro n
    obtain ⟨hcc, hbp, hpb, hact, hba, hbpo⟩ := h5 n
    exact ⟨hcc, EventVecInv_singleton _, hpb, hact, hba, fun _ => rfl⟩

theorem midiStateInv_getters {s : MidiState} (h : MidiStateInv s) : gettersMatchLast s := by
  obtain ⟨h1, h2, h3, h4, h5⟩ := h
  refine ⟨fun cc => rfl, rfl, rfl, ?_, ?_, ?_, ?_⟩
  · intro n hn0 hn127
    rw [MidiState.getPolyAftertouch, if_neg (by omega)]
  · intro n cc hn0 hn128
    obtain ⟨hcc, hbp, hpb, hact, hba, hbpo⟩ := h5 n
    rw [MidiState.getPerNoteCCValue, if_neg (by omega)]
    split
    · rfl
    · next hinact =>
      rw [hact cc hinact, lastValue_singleton]
  · intro n hn0 hn128
    obtain ⟨hcc, hbp, hpb, hact, hba, hbpo⟩ := h5 n
    rw [MidiState.getPerNotePitchBend, if_neg (by omega)]
    cases hb : (s.perNoteState n).bendActive with
    | true => simp
    | false => simp [hba hb]
  · intro n hn0 hn128
    obtain ⟨hcc, hbp, hpb, hact, hba, hbpo⟩ := h5 n
    rw [MidiState.getNoteBasePitch, if_neg (by omega)]
    cases hb : (s.perNoteState n).basePitchOverridden with
    | true => simp
    | false => simp [hbpo hb]

theorem initMidiState_inv : MidiStateInv initMidiState := by
  refine ⟨?_, EventVecInv_singleton 0, EventVecInv_singleton 0,
    fun _ => EventVecInv_singleton 0, ?_⟩
  · intro cc
    show EventVecInv (if _ then [⟨0, 0⟩] else [⟨0, 0⟩])
    split <;> exact EventVecInv_singleton 0
  · intro n
    exact ⟨fun _ => EventVecInv_singleton 0, EventVecInv_singleton _,
      EventVecInv_singleton 0, fun _ _ => rfl, fun _ => rfl, fun _ => rfl⟩

/-- Claim C6. Every MidiState operation invoked with a non-negative delay
(the event insertions for CC, pitch bend, channel and poly aftertouch and
the per-note events; `flushEvents`/`advanceTime`; the reset operations)
preserves the invariant that each event vector is non-empty, sorted by
strictly increasing delay with a base entry at delay 0, and under the
invariant each vector's last entry is the current value returned by the
corresponding getter. -/
theorem midiState_ops_preserve_invariant (s : MidiState)
    (delay ccNumber noteNumber pnCC blockSize : Int) (value : ℚ)
    (hinv : MidiStateInv s) (hd : 0 ≤ delay) :
    MidiStateInv (MidiState.ccEvent s delay ccNumber value) ∧
    MidiStateInv (MidiState.pitchBendEvent s delay value) ∧
    MidiStateInv (MidiState.channelAftertouchEvent s delay value) ∧
    MidiStateInv (MidiState.polyAftertouchEvent s delay noteNumber value) ∧
    MidiStateInv (MidiState.noteBasePitchEvent s delay noteNumber value) ∧
    MidiStateInv (MidiState.perNoteCCEvent s delay noteNumber pnCC value) ∧
    MidiStateInv (MidiState.perNotePitchBendEvent s delay noteNumber value) ∧
    MidiStateInv (MidiState.flushEvents s) ∧
    MidiStateInv (MidiState.advanceTime s blockSize) ∧
    MidiStateInv (MidiState.resetEventStates s) ∧
    MidiStateInv (MidiState.resetNoteStates s) ∧
    gettersMatchLast s ∧
    gettersMatchLast (MidiState.ccEvent s delay ccNumber value) ∧
    gettersMatchLast (MidiState.pitchBendEvent s delay value) ∧
    gettersMatchLast (MidiState.channelAftertouchEvent s delay value) ∧
    gettersMatchLast (MidiState.polyAftertouchEvent s delay noteNumber value) ∧
    gettersMatchLast (MidiState.noteBasePitchEvent s delay noteNumber value) ∧
    gettersMatchLast (MidiState.perNoteCCEvent s delay noteNumber pnCC value) ∧
    gettersMatchLast (MidiState.perNotePitchBendEvent s delay noteNumber value) ∧
    gettersMatchLast (MidiState.flushEvents s) ∧
    gettersMatchLast (MidiState.advanceTime s blockSize) ∧
    gettersMatchLast (MidiState.resetEventStates s) ∧
    gettersMatchLast (MidiState.resetNoteStates s) :=
  ⟨midiStateInv_ccEvent hinv hd ccNumber value,
    midiStateInv_pitchBendEvent hinv hd value,
    midiStateInv_channelAftertouchEvent hinv hd value,
    midiStateInv_polyAftertouchEvent hinv hd noteNumber value,
    midiStateInv_noteBasePitchEvent hinv hd noteNumber value,
    midiStateInv_perNoteCCEvent hinv hd noteNumber pnCC value,
    midiStateInv_perNotePitchBendEvent hinv hd noteNumber value,
    midiStateInv_flushEvents hinv,
    midiStateInv_advanceTime hinv blockSize,
    midiStateInv_resetEventStates s hinv,
    midiStateInv_resetNoteStates s hinv,
    midiStateInv_getters hinv,
    midiStateInv_getters (midiStateInv_ccEvent hinv hd ccNumber value),
    midiStateInv_getters (midiStateInv_pitchBendEvent hinv hd value),
    midiStateInv_getters (midiStateInv_channelAftertouchEvent hinv hd value),
    midiStateInv_getters (midiStateInv_polyAftertouchEvent hinv hd noteNumber value),
    midiStateInv_getters (midiStateInv_noteBasePitchEvent hinv hd noteNumber value),
    midiStateInv_getters (midiStateInv_perNoteCCEvent hinv hd noteNumber pnCC value),
    midiStateInv_getters (midiStateInv_perNotePitchBendEvent hinv hd noteNumber value),
    midiStateInv_getters (midiStateInv_flushEvents hinv),
    midiStateInv_getters (midiStateInv_advanceTime hinv blockSize),
    midiStateInv_getters (midiStateInv_resetEventStates s hinv),
    midiStateInv_getters (midiStateInv_resetNoteStates s hinv)⟩

/-- Witness for C6 at the freshly constructed state. -/
theorem midiState_ops_preserve_invariant_witness :
    MidiStateInv initMidiState ∧ (0 : Int) ≤ 0 ∧
    (MidiStateInv (MidiState.ccEvent initMidiState 0 5 2) ∧
      MidiStateInv (MidiState.pitchBendEvent initMidiState 0 2) ∧
      MidiStateInv (MidiState.channelAftertouchEvent initMidiState 0 2) ∧
      MidiStateInv (MidiState.polyAftertouchEvent initMidiState 0 60 2) ∧
      MidiStateInv (MidiState.noteBasePitchEvent initMidiState 0 60 2) ∧
      MidiStateInv (MidiState.perNoteCCEvent initMidiState 0 60 7 2) ∧
      MidiStateInv (MidiState.perNotePitchBendEvent initMidiState 0 60 2) ∧
      MidiStateInv (MidiState.flushEvents initMidiState) ∧
      MidiStateInv (MidiState.advanceTime initMidiState 16) ∧
      MidiStateInv (MidiState.resetEventStates initMidiState) ∧
      MidiStateInv (MidiState.resetNoteStates initMidiState) ∧
      gettersMatchLast initMidiState ∧
      gettersMatchLast (MidiState.ccEvent initMidiState 0 5 2) ∧
      gettersMatchLast (MidiState.pitchBendEvent initMidiState 0 2) ∧
      gettersMatchLast (MidiState.channelAftertouchEvent initMidiState 0 2) ∧
      gettersMatchLast (MidiState.polyAftertouchEvent initMidiState 0 60 2) ∧
      gettersMatchLast (MidiState.noteBasePitchEvent initMidiState 0 60 2) ∧
      gettersMatchLast (MidiState.perNoteCCEvent initMidiState 0 60 7 2) ∧
      gettersMatchLast (MidiState.perNotePitchBendEvent initMidiState 0 60 2) ∧
      gettersMatchLast (MidiState.flushEvents initMidiState) ∧
      gettersMatchLast (MidiState.advanceTime initMidiState 16) ∧
      gettersMatchLast (MidiState.resetEventStates initMidiState) ∧
      gettersMatchLast (MidiState.resetNoteStates initMidiState)) :=
  ⟨initMidiState_inv, le_refl 0,
    midiState_ops_preserve_invariant initMidiState 0 5 60 7 16 2
      initMidiState_inv (le_refl 0)⟩

end Sfz

